import Mathlib

/-!
Verification of the llm-secret-mcp core (TypeScript) against its
natural-language specification, via a shallow embedding in Lean 4.

Modelling conventions:
* `Buffer`s are `List Nat` (one `Nat` per byte).
* The AES-256 block primitive of Node's `crypto` module is an external
  library call; it is modelled as an explicit parameter
  `E : Bytes → Bytes → Bytes` (key → block → block) together with a
  decryption parameter `D`, and theorems assume only the inverse and
  block-length properties the real primitive has.  CBC chaining and
  PKCS#7 padding (what `aes-256-cbc` with default auto-padding adds
  around the block primitive) are modelled concretely.
* `crypto.randomBytes` is modelled as a parameter `randomBytes : Nat → Bytes`.
* Fallible operations return `Except` with the error codes of
  `src/utils/errors.ts`.
-/

abbrev Bytes := List Nat

/-- Error codes raised by `EncryptionManager` (`EncryptionError.code` in the
source), plus a constructor for raw Node I/O errors that are re-thrown
unwrapped by `loadOrCreateKey`. -/
inductive EncErrorCode where
  | INIT_FAILED
  | INVALID_KEY_SIZE
  | KEY_NOT_INITIALIZED
  | ENCRYPTION_FAILED
  | DECRYPTION_FAILED
  | INVALID_ENCRYPTED_DATA
  deriving DecidableEq, Repr

/-- Byte-wise XOR of two equal-length blocks (truncating to the shorter,
as `zipWith` does; all uses are on 16-byte blocks). -/
def xorBytes (a b : Bytes) : Bytes :=
  List.zipWith (fun x y => x ^^^ y) a b

/-- Split a byte list into consecutive 16-byte chunks (the last chunk may be
shorter if the length is not a multiple of 16).  Structural fuel recursion so
that the kernel can evaluate it; `fuel` must be at least `l.length`. -/
def toBlocksAux : Nat → Bytes → List Bytes
  | 0, _ => []
  | _, [] => []
  | fuel + 1, c :: rest => ((c :: rest).take 16) :: toBlocksAux fuel ((c :: rest).drop 16)

def toBlocks (l : Bytes) : List Bytes :=
  toBlocksAux l.length l

/-- PKCS#7 padding as performed by `cipher.final()` for `aes-256-cbc`:
append `padLen` copies of `padLen` where `padLen = 16 - len % 16 ∈ [1,16]`. -/
def pkcs7pad (data : Bytes) : Bytes :=
  data ++ List.replicate (16 - data.length % 16) (16 - data.length % 16)

/-- PKCS#7 unpadding as validated by `decipher.final()`: the last byte `p`
must satisfy `1 ≤ p ≤ 16`, and the last `p` bytes must all equal `p`. -/
def pkcs7unpad (data : Bytes) : Option Bytes :=
  match data.getLast? with
  | none => none
  | some p =>
    if 1 ≤ p ∧ p ≤ 16 ∧ p ≤ data.length ∧ (data.drop (data.length - p)).all (fun x => x = p)
    then some (data.take (data.length - p))
    else none

/-- CBC encryption over a list of 16-byte blocks with chaining value `prev`
(initially the IV): `c_i = E (p_i XOR c_(i-1))`. -/
def cbcEnc (E : Bytes → Bytes) : Bytes → List Bytes → List Bytes
  | _, [] => []
  | prev, b :: bs =>
    let c := E (xorBytes b prev)
    c :: cbcEnc E c bs

/-- CBC decryption over a list of ciphertext blocks with chaining value
`prev` (initially the IV): `p_i = D c_i XOR c_(i-1)`. -/
def cbcDec (D : Bytes → Bytes) : Bytes → List Bytes → List Bytes
  | _, [] => []
  | prev, c :: cs => xorBytes (D c) prev :: cbcDec D c cs

/-- The work done by `createDecipheriv('aes-256-cbc',…)` + `update`/`final` on
a ciphertext: the ciphertext must be a positive multiple of the block size
(else OpenSSL fails with a wrong-final-block-length error, surfaced by the
source as `DECRYPTION_FAILED`), and padding must validate. -/
def cbcDecryptCore (D : Bytes → Bytes) (iv ct : Bytes) : Option Bytes :=
  if ct.length % 16 = 0 then pkcs7unpad ((cbcDec D iv (toBlocks ct)).flatten)
  else none

/-- `EncryptionManager`'s mutable state: the key buffer, `Buffer.alloc(0)`
before initialization (`src/core/encryption.ts`, line 17). -/
structure EncryptionManager where
  key : Bytes
  deriving DecidableEq, Repr

/-- `EncryptionManager.encrypt` (`src/core/encryption.ts`, lines 85–122):
requires an initialized key, pads the data, CBC-encrypts it under a fresh
16-byte IV (the IV, produced by `crypto.randomBytes(16)`, is passed in as a
parameter here), and returns `IV ‖ ciphertext`. -/
def EncryptionManager.encrypt (E : Bytes → Bytes → Bytes) (m : EncryptionManager)
    (iv : Bytes) (data : Bytes) : Except EncErrorCode Bytes :=
  if m.key.length = 0 then .error .KEY_NOT_INITIALIZED
  else .ok (iv ++ (cbcEnc (E m.key) iv (toBlocks (pkcs7pad data))).flatten)

/-- `EncryptionManager.decrypt` (`src/core/encryption.ts`, lines 129–171):
requires an initialized key; rejects inputs shorter than 16 bytes as
`INVALID_ENCRYPTED_DATA`; otherwise splits off the 16-byte IV, CBC-decrypts
the remainder, and returns the recovered bytes (the source finally converts
them to a UTF-8 string; content is modelled at the byte level). -/
def EncryptionManager.decrypt (D : Bytes → Bytes → Bytes) (m : EncryptionManager)
    (encryptedData : Bytes) : Except EncErrorCode Bytes :=
  if m.key.length = 0 then .error .KEY_NOT_INITIALIZED
  else if encryptedData.length < 16 then .error .INVALID_ENCRYPTED_DATA
  else
    match cbcDecryptCore (D m.key) (encryptedData.take 16) (encryptedData.drop 16) with
    | some pt => .ok pt
    | none => .error .DECRYPTION_FAILED

-- ## Key lifecycle (`initialize` / `loadOrCreateKey`)
/-- The whitespace characters recognised by the model (the ASCII part of the
JavaScript `\s` class, which `String.trim` and `split(/\s+/)` use). -/
def wsChars : List Char := [' ', '\t', '\n', '\r', '\x0b', '\x0c']

def isWsChar (c : Char) : Bool := wsChars.contains c

/-- JavaScript `String.prototype.trim`: strip leading and trailing
whitespace. -/
def trimChars (l : List Char) : List Char :=
  ((l.dropWhile isWsChar).reverse.dropWhile isWsChar).reverse

/-- Outcome of the `access` + `readFile` step on the key file: either the
file's text content, or a Node I/O error identified by its `code` (an absent
file surfaces as code `ENOENT`). -/
inductive KeyFileRead where
  | ioError (code : List Char)
  | content (text : List Char)
  deriving DecidableEq

/-- `EncryptionManager.loadOrCreateKey` (`src/core/encryption.ts`,
lines 46–78).  Reads the key file; on success base64-decodes the trimmed text
(`Buffer.from(s,'base64')` is an external primitive, passed in as
`b64decode`) and validates the length against the configured key size.  The
`catch` regenerates a fresh key — persisting it base64-encoded — when the
read failed with `ENOENT` or when the thrown error was the manager's own
`INVALID_KEY_SIZE`; any other I/O error is re-thrown.  The result pairs the
adopted key with the content written to the key file, if any. -/
def loadOrCreateKey (b64decode : List Char → Bytes) (b64encode : Bytes → List Char)
    (randomBytes : Nat → Bytes) (keySize : Nat) (file : KeyFileRead) :
    Except (List Char) (Bytes × Option (List Char)) :=
  match file with
  | .ioError code =>
    if code = ("ENOENT").toList then
      .ok (randomBytes keySize, some (b64encode (randomBytes keySize)))
    else .error code
  | .content text =>
    if (b64decode (trimChars text)).length = keySize then
      .ok (b64decode (trimChars text), none)
    else
      .ok (randomBytes keySize, some (b64encode (randomBytes keySize)))

/-- `EncryptionManager.initialize` (`src/core/encryption.ts`, lines 32–41):
adopts the key from `loadOrCreateKey`, wrapping any propagated failure in a
fatal `INIT_FAILED` error. -/
def initEncryption (b64decode : List Char → Bytes) (b64encode : Bytes → List Char)
    (randomBytes : Nat → Bytes) (keySize : Nat) (file : KeyFileRead) :
    Except EncErrorCode (EncryptionManager × Option (List Char)) :=
  match loadOrCreateKey b64decode b64encode randomBytes keySize file with
  | .ok (k, written) => .ok (EncryptionManager.mk k, written)
  | .error _ => .error .INIT_FAILED

-- ## Privacy detector (`src/core/privacy-detector.ts`)
/-- The word-character class of the JavaScript regex `\b`/`\w`:
`[A-Za-z0-9_]`. -/
def isWordChar (c : Char) : Bool := c.isAlphanum || c == '_'

def isWordCharO : Option Char → Bool
  | none => false
  | some c => isWordChar c

/-- Case-insensitive character comparison, as the `i` regex flag performs. -/
def charEqCI (a b : Char) : Bool := a.toLower == b.toLower

/-- `w` is a case-insensitive prefix of `t`. -/
def matchesAt : List Char → List Char → Bool
  | [], _ => true
  | _ :: _, [] => false
  | a :: ws, b :: ts => charEqCI a b && matchesAt ws ts

/-- One alternative of a `\b(alt₁|alt₂|…)\b` regex matches at the start of
`t`: it is a case-insensitive prefix and the character following it (if any)
is not a word character (the trailing `\b`; every lexicon alternative starts
and ends with a word character). -/
def altMatch (w t : List Char) : Bool :=
  matchesAt w t && !(isWordCharO ((t.drop w.length).head?))

/-- First alternative (in the regex's alternation order, with backtracking
across alternatives) matching at the start of `t`. -/
def findAlt (alts : List (List Char)) (t : List Char) : Option (List Char) :=
  alts.find? (fun w => altMatch w t)

/-- `(text.match(/\b(…)\b/gi) || []).length`: scan left to right; at every
position whose left context is a word boundary, try the alternatives in
order; on a match, count it and resume after it (the `g` flag's
`lastIndex`).  Structural fuel recursion (`fuel ≥ t.length`) so the kernel
can evaluate it; a match consumes at least one character, so the fuel
decreases at least as fast as the text. -/
def countMatchesAux (alts : List (List Char)) : Nat → Option Char → List Char → Nat
  | 0, _, _ => 0
  | _ + 1, _, [] => 0
  | fuel + 1, prev, c :: ts =>
    if isWordCharO prev then countMatchesAux alts fuel (some c) ts
    else
      match findAlt alts (c :: ts) with
      | some w =>
        if w.length = 0 then countMatchesAux alts fuel (some c) ts
        else 1 + countMatchesAux alts fuel (((c :: ts).take w.length).getLastD c)
          ((c :: ts).drop w.length)
      | none => countMatchesAux alts fuel (some c) ts

def countMatches (alts : List (List Char)) (t : List Char) : Nat :=
  countMatchesAux alts t.length none t

/-- Lexicon of `/\b(I|me|my|mine|myself)\b/gi` (line 174). -/
def firstPersonWords : List (List Char) :=
  [("I").toList, ("me").toList, ("my").toList, ("mine").toList, ("myself").toList]

/-- Lexicon of `/\b(think|feel|believe|wonder|question|doubt|reflect)\b/gi`
(line 175). -/
def thinkingVerbWords : List (List Char) :=
  [("think").toList, ("feel").toList, ("believe").toList, ("wonder").toList,
   ("question").toList, ("doubt").toList, ("reflect").toList]

/-- Lexicon of `/\b(maybe|perhaps|possibly|might|could be|uncertain|unsure)\b/gi`
(line 178). -/
def uncertaintyWords : List (List Char) :=
  [("maybe").toList, ("perhaps").toList, ("possibly").toList, ("might").toList,
   ("could be").toList, ("uncertain").toList, ("unsure").toList]

/-- The four sensitive-topic lexicons (lines 198–203). -/
def controversyWords : List (List Char) :=
  [("controversial").toList, ("controversy").toList, ("contentious").toList,
   ("dispute").toList, ("disagreement").toList]

def privacyTopicWords : List (List Char) :=
  [("personal").toList, ("private").toList, ("intimate").toList, ("secret").toList]

def fearWords : List (List Char) :=
  [("worry").toList, ("concern").toList, ("afraid").toList, ("fear").toList,
   ("anxious").toList, ("anxiety").toList]

def criticismWords : List (List Char) :=
  [("critique").toList, ("criticism").toList, ("critical").toList, ("flaw").toList,
   ("weakness").toList, ("shortcoming").toList]

/-- Lexicon of `/\b(careful|cautious|warning|between us|not for|hesitant)\b/gi`
(line 212). -/
def cautionWords : List (List Char) :=
  [("careful").toList, ("cautious").toList, ("warning").toList,
   ("between us").toList, ("not for").toList, ("hesitant").toList]

/-- Number of maximal whitespace runs in `t` (helper for the JavaScript
`split(/\s+/)` semantics). -/
def wsRunsAux : Bool → List Char → Nat
  | _, [] => 0
  | inRun, c :: ts =>
    if isWsChar c then (if inRun then wsRunsAux true ts else 1 + wsRunsAux true ts)
    else wsRunsAux false ts

/-- `text.split(/\s+/).length` (lines 181 and 215).  JavaScript `split` with a
non-empty separator never returns an empty array: it returns one piece per
gap between separator matches, including empty leading/trailing pieces, so
the count is (number of maximal whitespace runs) + 1 and is never 0 — the
`wordCount === 0` guard in the source is unreachable. -/
def wordCountJS (t : List Char) : Nat := wsRunsAux false t + 1

/-- `PrivacyDetector.calculateIntrospectionScore` (lines 172–189), with real
arithmetic modelled over `ℚ` (exact at every value this development
evaluates, in particular at 0). -/
def calculateIntrospectionScore (text : List Char) : ℚ :=
  let firstPerson := countMatches firstPersonWords text
  let thinkingVerbs := countMatches thinkingVerbWords text
  let uncertainty := countMatches uncertaintyWords text
  let wordCount := wordCountJS text
  if wordCount = 0 then 0
  else min 1 (((firstPerson + thinkingVerbs + uncertainty : ℕ) : ℚ) /
    ((wordCount : ℚ) * (3 / 10)))

/-- `PrivacyDetector.calculateSensitivityScore` (lines 196–223). -/
def calculateSensitivityScore (text : List Char) : ℚ :=
  let topicMentions := countMatches controversyWords text +
    countMatches privacyTopicWords text + countMatches fearWords text +
    countMatches criticismWords text
  let cautionPhrases := countMatches cautionWords text
  let wordCount := wordCountJS text
  if wordCount = 0 then 0
  else min 1 (((topicMentions + cautionPhrases * 2 : ℕ) : ℚ) /
    ((wordCount : ℚ) * (1 / 4)))

structure PrivacyConfig where
  introspectionThreshold : ℚ
  sensitivityThreshold : ℚ

/-- `PrivacyDetector.isLikelyPrivate` (lines 141–165): the explicit privacy
indicator patterns (default indicators plus escaped custom patterns, each
modelled as its `RegExp.test` predicate) are checked first and
short-circuit; only then are the scores compared against the thresholds.
`processOutput` always passes the two pre-computed scores, modelled here as
explicit arguments. -/
def isLikelyPrivate (privacyPatterns : List (List Char → Bool))
    (config : PrivacyConfig) (text : List Char)
    (introspectionScore sensitivityScore : ℚ) : Bool :=
  if privacyPatterns.any (fun p => p text) then true
  else if introspectionScore > config.introspectionThreshold then true
  else if sensitivityScore > config.sensitivityThreshold then true
  else false

/-- Case-insensitive literal substring test: the `RegExp.test` of an escaped
custom pattern, or of an indicator whose `\s+` gaps are single spaces. -/
def containsCI (pat : List Char) : List Char → Bool
  | [] => matchesAt pat []
  | c :: ts => matchesAt pat (c :: ts) || containsCI pat ts

-- ## C9: zero-token segments score 0.0
/-- Every alternative of the lexicon is non-empty and starts with a character
that cannot case-insensitively equal a whitespace character (true of all the
fixed lexicons, whose alternatives start with letters). -/
def startsNonWs (alts : List (List Char)) : Prop :=
  ∀ w ∈ alts, w ≠ [] ∧ ∀ d ∈ wsChars, charEqCI (w.headD ' ') d = false

instance (alts : List (List Char)) : Decidable (startsNonWs alts) := by
  unfold startsNonWs
  infer_instance

-- ## Storage (`src/core/storage.ts`, `StorageManager`)
inductive StorageErrorCode where
  | INIT_FAILED
  | EMPTY_DATA
  | SAVE_FAILED
  | STORAGE_FULL
  | READ_FAILED
  | LIST_FAILED
  deriving DecidableEq, Repr

/-- One file of the private directory as the filesystem holds it: its name
within the directory, its content, its modification time (integer
milliseconds) and whether a `stat` on it currently succeeds. -/
structure FileEntry where
  name : List Char
  content : Bytes
  mtime : Nat
  statOk : Bool
  deriving DecidableEq, Repr

/-- The private storage directory: whether it exists, and its files. -/
structure DirState where
  present : Bool
  files : List FileEntry
  deriving DecidableEq, Repr

/-- `StoredThought` (`src/core/types.ts`). -/
structure StoredThought where
  id : List Char
  filepath : List Char
  timestamp : Nat
  sizeBytes : Nat
  deriving DecidableEq, Repr

/-- `StorageStats` (`src/core/types.ts`). -/
structure StorageStats where
  count : Nat
  totalSizeBytes : Nat
  oldestTimestamp : Nat
  newestTimestamp : Nat
  deriving DecidableEq, Repr

def encSuffix : List Char := (".enc").toList

/-- `file.endsWith('.enc')`. -/
def endsWithEnc (name : List Char) : Bool := encSuffix.isSuffixOf name

/-- `path.basename(name, '.enc')` on a bare filename: strip the `.enc`
suffix, except when the whole name is `.enc` (Node keeps it then). -/
def stripEnc (name : List Char) : List Char :=
  if endsWithEnc name = true ∧ name ≠ encSuffix then name.take (name.length - 4)
  else name

/-- `path.join(dir, name)` for a plain directory and bare filename. -/
def joinPath (dir name : List Char) : List Char := dir ++ '/' :: name

/-- `path.basename(p)`: everything after the last separator. -/
def basename (p : List Char) : List Char :=
  (p.reverse.takeWhile (fun c => !(c == '/'))).reverse

/-- `fsPromises.stat(filepath)` restricted to the fields the source uses:
`some (mtimeMs, size)` when the file exists and its stat succeeds. -/
def statFile (fs : DirState) (name : List Char) : Option (Nat × Nat) :=
  match fs.files.find? (fun e => e.name == name) with
  | some e => if e.statOk then some (e.mtime, e.content.length) else none
  | none => none

/-- `StorageManager.getSavedFiles` (lines 357–373): list the directory —
an absent directory surfaces as `ENOENT` and yields `[]`, not an error —
and keep the names ending in `.enc`.  (The source maps each name through
`path.join`; the model keeps bare names and joins when deriving metadata,
which composes to the same records.) -/
def getSavedFiles (fs : DirState) : List (List Char) :=
  if fs.present then (fs.files.map (fun e => e.name)).filter endsWithEnc else []

/-- Insert into a list sorted by descending timestamp, after every entry
with a strictly larger or equal timestamp (the stable position). -/
def insertByTimestampDesc (x : StoredThought) : List StoredThought → List StoredThought
  | [] => [x]
  | y :: ys =>
    if y.timestamp ≤ x.timestamp then x :: y :: ys
    else y :: insertByTimestampDesc x ys

/-- `Array.prototype.sort((a, b) => b.timestamp - a.timestamp)` (line 401):
a stable sort by descending timestamp.  A stable sort's output is uniquely
determined by the comparator, so this stable insertion sort computes the
same list as the engine's stable sort. -/
def sortByTimestampDesc : List StoredThought → List StoredThought
  | [] => []
  | x :: xs => insertByTimestampDesc x (sortByTimestampDesc xs)

/-- The metadata record derived from a directory entry (lines 385–393):
`id` is the filename (the basename of the path) without its `.enc` suffix,
`timestamp` is `stats.mtimeMs`, `sizeBytes` is `stats.size`. -/
def toThoughtMeta (dir name : List Char) (mtime size : Nat) : StoredThought :=
  StoredThought.mk (stripEnc (basename (joinPath dir name))) (joinPath dir name)
    mtime size

/-- The loop body of `getThoughtMetadata`: stat one file and build its
record, or skip the file (`none`) when the stat fails. -/
def statMeta (dir : List Char) (fs : DirState) (name : List Char) :
    Option StoredThought :=
  match statFile fs name with
  | some ms => some (toThoughtMeta dir name ms.1 ms.2)
  | none => none

/-- `StorageManager.getThoughtMetadata` (lines 379–402): stat every saved
`.enc` file, skipping (not failing on) any file whose stat fails, and sort
the records newest-first. -/
def getThoughtMetadata (dir : List Char) (fs : DirState) : List StoredThought :=
  sortByTimestampDesc ((getSavedFiles fs).filterMap (statMeta dir fs))

/-- `StorageManager.getStorageStats` (lines 424–449): all-zero on an empty
store, else count / sum of sizes / `Math.min` / `Math.max` of the
timestamps over the metadata list. -/
def getStorageStats (dir : List Char) (fs : DirState) : StorageStats :=
  match getThoughtMetadata dir fs with
  | [] => StorageStats.mk 0 0 0 0
  | t :: ts =>
    StorageStats.mk (t :: ts).length
      ((t :: ts).foldl (fun s x => s + x.sizeBytes) 0)
      (ts.foldl (fun m x => min m x.timestamp) t.timestamp)
      (ts.foldl (fun m x => max m x.timestamp) t.timestamp)

/-- `StorageManager.generateFilename` (lines 295–302); the 14-character
timestamp string derived from `new Date().toISOString()` is passed in. -/
def generateFilename (ts14 : List Char) : List Char :=
  ("private_thought_").toList ++ ts14 ++ encSuffix

/-- `fsPromises.writeFile`: overwrite the file of that name if present,
else append it; either way the directory exists afterwards and the file's
modification time is the current clock. -/
def writeFileEntry (fs : DirState) (name : List Char) (data : Bytes) (now : Nat) :
    DirState :=
  if fs.files.any (fun e => e.name == name) then
    DirState.mk true (fs.files.map (fun e =>
      if e.name == name then FileEntry.mk name data now true else e))
  else
    DirState.mk true (fs.files ++ [FileEntry.mk name data now true])

/-- `StorageManager.saveEncryptedThought` (lines 309–351): reject empty
data; ensure the directory and write the blob under the generated filename;
return the metadata record with `id` from the filename without suffix,
`timestamp = Date.now()` and `sizeBytes` the blob length.  The clock `now`
serves both the write's mtime and `Date.now()` (one clock reading per call;
disk-full and other write faults are outside the model). -/
def saveEncryptedThought (dir : List Char) (fs : DirState) (now : Nat)
    (ts14 : List Char) (encryptedData : Bytes) :
    Except StorageErrorCode (DirState × StoredThought) :=
  if encryptedData.length = 0 then .error .EMPTY_DATA
  else
    .ok (writeFileEntry fs (generateFilename ts14) encryptedData now,
      StoredThought.mk (stripEnc (basename (generateFilename ts14)))
        (joinPath dir (generateFilename ts14)) now encryptedData.length)

-- ## Theorems

-- ## Lemmas about blocks, padding and CBC
theorem toBlocksAux_nil (f : Nat) : toBlocksAux f [] = [] := by
  cases f <;> rfl

theorem toBlocksAux_fuel : ∀ (f₁ : Nat) (l : Bytes) (f₂ : Nat), l.length ≤ f₁ → l.length ≤ f₂ →
    toBlocksAux f₁ l = toBlocksAux f₂ l := by
  intro f₁
  induction f₁ with
  | zero =>
    intro l f₂ h₁ _
    have : l = [] := List.eq_nil_of_length_eq_zero (Nat.le_zero.mp h₁)
    subst this
    simp [toBlocksAux_nil]
  | succ f ih =>
    intro l f₂ h₁ h₂
    match l with
    | [] => simp [toBlocksAux_nil]
    | c :: rest =>
      have hlen : (c :: rest).length = rest.length + 1 := by simp
      obtain ⟨f₂', rfl⟩ : ∃ g, f₂ = g + 1 := by
        cases f₂ with
        | zero => simp [hlen] at h₂
        | succ g => exact ⟨g, rfl⟩
      show ((c :: rest).take 16) :: toBlocksAux f ((c :: rest).drop 16) =
        ((c :: rest).take 16) :: toBlocksAux f₂' ((c :: rest).drop 16)
      have hd : ((c :: rest).drop 16).length = (c :: rest).length - 16 := by
        simp
      refine congrArg _ (ih _ f₂' ?_ ?_) <;> (rw [hd]; simp at h₁ h₂ ⊢; omega)

theorem toBlocks_cons_eq (l : Bytes) (h : l ≠ []) :
    toBlocks l = l.take 16 :: toBlocks (l.drop 16) := by
  match l with
  | c :: rest =>
    show toBlocksAux (rest.length + 1) (c :: rest) = _
    show ((c :: rest).take 16) :: toBlocksAux rest.length ((c :: rest).drop 16) = _
    refine congrArg _ (toBlocksAux_fuel _ _ _ ?_ ?_) <;> simp

theorem flatten_toBlocksAux : ∀ (f : Nat) (l : Bytes), l.length ≤ f →
    (toBlocksAux f l).flatten = l := by
  intro f
  induction f with
  | zero =>
    intro l h
    have : l = [] := List.eq_nil_of_length_eq_zero (Nat.le_zero.mp h)
    subst this; rfl
  | succ f ih =>
    intro l h
    match l with
    | [] => rfl
    | c :: rest =>
      show (((c :: rest).take 16) :: toBlocksAux f ((c :: rest).drop 16)).flatten = c :: rest
      rw [List.flatten_cons, ih _ (by simp at h ⊢; omega), List.take_append_drop]

/-- Splitting into blocks and flattening back is the identity. -/
theorem flatten_toBlocks (l : Bytes) : (toBlocks l).flatten = l :=
  flatten_toBlocksAux l.length l le_rfl

theorem toBlocksAux_blockLen : ∀ (f : Nat) (l : Bytes), l.length ≤ f → l.length % 16 = 0 →
    ∀ b ∈ toBlocksAux f l, b.length = 16 := by
  intro f
  induction f with
  | zero =>
    intro l h _ b hb
    have : l = [] := List.eq_nil_of_length_eq_zero (Nat.le_zero.mp h)
    subst this; simp [toBlocksAux_nil] at hb
  | succ f ih =>
    intro l h hmod b hb
    match l with
    | [] => simp [toBlocksAux_nil] at hb
    | c :: rest =>
      have h16 : 16 ≤ (c :: rest).length := by
        have : (c :: rest).length ≠ 0 := by simp
        omega
      simp only [toBlocksAux, List.mem_cons] at hb
      rcases hb with hb | hb
      · subst hb
        simp only [List.length_take, List.length_cons]
        simp only [List.length_cons] at h16
        omega
      · have hd : ((c :: rest).drop 16).length = (c :: rest).length - 16 :=
          List.length_drop 16 (c :: rest)
        refine ih _ ?_ ?_ b hb
        · rw [hd]; omega
        · rw [hd]; omega

/-- Every block of a multiple-of-16-length byte list has length exactly 16. -/
theorem toBlocks_blockLen (l : Bytes) (hmod : l.length % 16 = 0) :
    ∀ b ∈ toBlocks l, b.length = 16 :=
  toBlocksAux_blockLen l.length l le_rfl hmod

/-- Re-chunking the flattening of a list of full blocks recovers the blocks. -/
theorem toBlocks_flatten : ∀ (bs : List Bytes), (∀ b ∈ bs, b.length = 16) →
    toBlocks bs.flatten = bs := by
  have aux : ∀ (bs : List Bytes), (∀ b ∈ bs, b.length = 16) →
      ∀ f, bs.flatten.length ≤ f → toBlocksAux f bs.flatten = bs := by
    intro bs
    induction bs with
    | nil => intro _ f _; simp [toBlocksAux_nil]
    | cons b bs ih =>
      intro h f hf
      have hb : b.length = 16 := h b (by simp)
      have hflat : (b :: bs).flatten = b ++ bs.flatten := List.flatten_cons
      obtain ⟨f', rfl⟩ : ∃ g, f = g + 1 := by
        cases f with
        | zero =>
          exfalso
          rw [hflat] at hf
          simp [hb] at hf
        | succ g => exact ⟨g, rfl⟩
      obtain ⟨c, brest, rfl⟩ : ∃ c brest, b = c :: brest := by
        cases b with
        | nil => simp at hb
        | cons c brest => exact ⟨c, brest, rfl⟩
      rw [hflat]
      show (((c :: brest) ++ bs.flatten).take 16) ::
        toBlocksAux f' (((c :: brest) ++ bs.flatten).drop 16) = (c :: brest) :: bs
      rw [List.take_append_of_le_length (by omega), List.drop_append_of_le_length (by omega)]
      rw [← hb, List.take_length, List.drop_length, List.nil_append]
      refine congrArg _ (ih (fun x hx => h x (by simp [hx])) f' ?_)
      rw [hflat] at hf
      simp [hb] at hf ⊢
      omega
  intro bs h
  exact aux bs h bs.flatten.length le_rfl

theorem length_xorBytes (a b : Bytes) : (xorBytes a b).length = min a.length b.length := by
  simp [xorBytes]

theorem xorBytes_cancel : ∀ (a b : Bytes), a.length ≤ b.length →
    xorBytes (xorBytes a b) b = a := by
  intro a
  induction a with
  | nil => intro b _; simp [xorBytes]
  | cons x xs ih =>
    intro b h
    match b with
    | [] => simp at h
    | y :: ys =>
      show (x ^^^ y ^^^ y) :: xorBytes (xorBytes xs ys) ys = x :: xs
      rw [Nat.xor_cancel_right, ih ys (by simpa using h)]

theorem cbcEnc_length (E : Bytes → Bytes) :
    ∀ (bs : List Bytes) (prev : Bytes), (cbcEnc E prev bs).length = bs.length := by
  intro bs
  induction bs with
  | nil => intro prev; rfl
  | cons b bs ih => intro prev; simp [cbcEnc, ih]

theorem cbcEnc_blockLen (E : Bytes → Bytes) (hE : ∀ b, b.length = 16 → (E b).length = 16) :
    ∀ (bs : List Bytes) (prev : Bytes), prev.length = 16 → (∀ b ∈ bs, b.length = 16) →
    ∀ c ∈ cbcEnc E prev bs, c.length = 16 := by
  intro bs
  induction bs with
  | nil => intro prev _ _ c hc; simp [cbcEnc] at hc
  | cons b bs ih =>
    intro prev hprev hbs c hc
    have hb : b.length = 16 := hbs b (by simp)
    have hxl : (xorBytes b prev).length = 16 := by
      rw [length_xorBytes, hb, hprev]
      exact Nat.min_self 16
    have hEl : (E (xorBytes b prev)).length = 16 := hE _ hxl
    simp only [cbcEnc, List.mem_cons] at hc
    rcases hc with hc | hc
    · subst hc; exact hEl
    · exact ih (E (xorBytes b prev)) hEl (fun x hx => hbs x (by simp [hx])) c hc

theorem cbcDec_cbcEnc (E D : Bytes → Bytes) (hED : ∀ b, D (E b) = b)
    (hE : ∀ b, b.length = 16 → (E b).length = 16) :
    ∀ (bs : List Bytes) (prev : Bytes), prev.length = 16 → (∀ b ∈ bs, b.length = 16) →
    cbcDec D prev (cbcEnc E prev bs) = bs := by
  intro bs
  induction bs with
  | nil => intro prev _ _; rfl
  | cons b bs ih =>
    intro prev hprev hbs
    have hb : b.length = 16 := hbs b (by simp)
    have hxl : (xorBytes b prev).length = 16 := by
      rw [length_xorBytes, hb, hprev]
      exact Nat.min_self 16
    show xorBytes (D (E (xorBytes b prev))) prev :: _ = b :: bs
    rw [hED, xorBytes_cancel b prev (by omega)]
    exact congrArg _ (ih (E (xorBytes b prev)) (hE _ hxl)
      (fun x hx => hbs x (by simp [hx])))

theorem pkcs7pad_length_mod (x : Bytes) : (pkcs7pad x).length % 16 = 0 := by
  simp [pkcs7pad]
  omega

theorem pkcs7pad_ne_nil (x : Bytes) : pkcs7pad x ≠ [] := by
  have h : (pkcs7pad x).length ≠ 0 := by
    simp [pkcs7pad]
    omega
  intro hc
  rw [hc] at h
  simp at h

theorem pkcs7unpad_pkcs7pad (x : Bytes) : pkcs7unpad (pkcs7pad x) = some x := by
  have hp1 : 1 ≤ 16 - x.length % 16 := by omega
  have hp16 : 16 - x.length % 16 ≤ 16 := by omega
  have hrep : List.replicate (16 - x.length % 16) (16 - x.length % 16) ≠ [] := by
    simp [List.replicate_eq_nil_iff]
    omega
  have hlast : (pkcs7pad x).getLast? = some (16 - x.length % 16) := by
    rw [pkcs7pad, List.getLast?_append_of_ne_nil _ hrep]
    rw [List.getLast?_replicate]
    simp
    omega
  have hlen : (pkcs7pad x).length = x.length + (16 - x.length % 16) := by
    simp [pkcs7pad]
  have hsub : (pkcs7pad x).length - (16 - x.length % 16) = x.length := by omega
  have hstep : pkcs7unpad (pkcs7pad x) =
      if 1 ≤ 16 - x.length % 16 ∧ 16 - x.length % 16 ≤ 16 ∧
        16 - x.length % 16 ≤ (pkcs7pad x).length ∧
        ((pkcs7pad x).drop ((pkcs7pad x).length - (16 - x.length % 16))).all
          (fun y => y = 16 - x.length % 16)
      then some ((pkcs7pad x).take ((pkcs7pad x).length - (16 - x.length % 16)))
      else none := by
    rw [pkcs7unpad, hlast]
  rw [hstep, if_pos]
  · rw [hsub]
    rw [show (pkcs7pad x).take x.length = x by rw [pkcs7pad]; exact List.take_left x _]
  · refine ⟨hp1, hp16, by omega, ?_⟩
    rw [hsub]
    rw [show (pkcs7pad x).drop x.length = List.replicate (16 - x.length % 16)
      (16 - x.length % 16) by rw [pkcs7pad]; exact List.drop_left x _]
    simp [List.all_eq_true, List.mem_replicate]

theorem flatten_length_of_blocks : ∀ (bs : List Bytes), (∀ b ∈ bs, b.length = 16) →
    bs.flatten.length = 16 * bs.length := by
  intro bs
  induction bs with
  | nil => intro _; rfl
  | cons b bs ih =>
    intro h
    rw [List.flatten_cons, List.length_append, h b (by simp),
      ih (fun x hx => h x (by simp [hx]))]
    simp [Nat.mul_add, Nat.mul_one]
    omega

theorem toBlocks_ne_nil (l : Bytes) (h : l ≠ []) : toBlocks l ≠ [] := by
  rw [toBlocks_cons_eq l h]
  simp

-- ## C1: round trip of the cipher
/-- C1.  Round trip of the cipher: with an initialized key, for arbitrary
byte content `x` (including the empty case and multi-byte UTF-8 content,
which at this level is just bytes), `decrypt (encrypt x) = ok x`.  The block
primitive is abstract; the hypotheses state the inverse and block-size
properties that AES-256 has. -/
theorem encrypt_decrypt_roundtrip (E D : Bytes → Bytes → Bytes) (m : EncryptionManager)
    (hkey : m.key ≠ [])
    (hED : ∀ b, D m.key (E m.key b) = b)
    (hE : ∀ b, b.length = 16 → (E m.key b).length = 16)
    (iv : Bytes) (hiv : iv.length = 16) (x : Bytes) :
    (m.encrypt E iv x).bind (m.decrypt D) = Except.ok x := by
  have hkl : ¬ m.key.length = 0 := by
    intro h
    exact hkey (List.eq_nil_of_length_eq_zero h)
  have hbs16 : ∀ b ∈ toBlocks (pkcs7pad x), b.length = 16 :=
    toBlocks_blockLen _ (pkcs7pad_length_mod x)
  have hcbs16 : ∀ c ∈ cbcEnc (E m.key) iv (toBlocks (pkcs7pad x)), c.length = 16 :=
    cbcEnc_blockLen _ hE _ iv hiv hbs16
  have hctlen : (cbcEnc (E m.key) iv (toBlocks (pkcs7pad x))).flatten.length =
      16 * (cbcEnc (E m.key) iv (toBlocks (pkcs7pad x))).length :=
    flatten_length_of_blocks _ hcbs16
  have hbsne : toBlocks (pkcs7pad x) ≠ [] := toBlocks_ne_nil _ (pkcs7pad_ne_nil x)
  have hnum : 1 ≤ (cbcEnc (E m.key) iv (toBlocks (pkcs7pad x))).length := by
    rw [cbcEnc_length]
    exact List.length_pos.mpr hbsne
  have hct16 : 16 ≤ (cbcEnc (E m.key) iv (toBlocks (pkcs7pad x))).flatten.length := by
    rw [hctlen]; omega
  rw [EncryptionManager.encrypt, if_neg hkl]
  show EncryptionManager.decrypt D m _ = _
  rw [EncryptionManager.decrypt, if_neg hkl, if_neg (by
    rw [List.length_append, hiv]
    omega)]
  rw [List.take_left' hiv, List.drop_left' hiv]
  rw [cbcDecryptCore, if_pos (by rw [hctlen]; omega)]
  rw [toBlocks_flatten _ hcbs16, cbcDec_cbcEnc _ _ hED hE _ iv hiv hbs16,
    flatten_toBlocks, pkcs7unpad_pkcs7pad]

/-- C1 witness: the round trip at concrete inputs — the empty content and the
UTF-8 bytes of `"héllo"` — with the identity block permutation, a 32-byte key
and a concrete IV. -/
theorem encrypt_decrypt_roundtrip_witness :
    ((EncryptionManager.mk (List.replicate 32 7)).encrypt (fun _ b => b) (List.replicate 16 3)
        []).bind ((EncryptionManager.mk (List.replicate 32 7)).decrypt (fun _ b => b)) =
      Except.ok [] ∧
    ((EncryptionManager.mk (List.replicate 32 7)).encrypt (fun _ b => b) (List.replicate 16 3)
        [104, 195, 169, 108, 108, 111]).bind
        ((EncryptionManager.mk (List.replicate 32 7)).decrypt (fun _ b => b)) =
      Except.ok [104, 195, 169, 108, 108, 111] :=
  ⟨encrypt_decrypt_roundtrip (fun _ b => b) (fun _ b => b) _ (by decide)
      (fun b => rfl) (fun b h => h) _ (by decide) [],
   encrypt_decrypt_roundtrip (fun _ b => b) (fun _ b => b) _ (by decide)
      (fun b => rfl) (fun b h => h) _ (by decide) [104, 195, 169, 108, 108, 111]⟩

-- ## C4: decrypt's error contract
/-- C4.  `decrypt`'s error contract: with no initialized key it fails with
`KEY_NOT_INITIALIZED`; with an initialized key it fails with
`INVALID_ENCRYPTED_DATA` exactly when the blob is shorter than 16 bytes;
otherwise it splits off the first 16 bytes as IV, decrypts the remainder,
and returns the recovered content (or `DECRYPTION_FAILED` when the CBC
decryption itself rejects the data). -/
theorem decrypt_error_contract (D : Bytes → Bytes → Bytes) (m : EncryptionManager)
    (blob : Bytes) :
    (m.key = [] → m.decrypt D blob = .error .KEY_NOT_INITIALIZED) ∧
    (m.key ≠ [] →
      (m.decrypt D blob = .error .INVALID_ENCRYPTED_DATA ↔ blob.length < 16)) ∧
    (m.key ≠ [] → 16 ≤ blob.length →
      ((∃ pt, cbcDecryptCore (D m.key) (blob.take 16) (blob.drop 16) = some pt ∧
          m.decrypt D blob = .ok pt) ∨
        (cbcDecryptCore (D m.key) (blob.take 16) (blob.drop 16) = none ∧
          m.decrypt D blob = .error .DECRYPTION_FAILED))) := by
  refine ⟨?_, ?_, ?_⟩
  · intro h
    rw [EncryptionManager.decrypt, if_pos (by rw [h]; rfl)]
  · intro hkey
    have hkl : ¬ m.key.length = 0 := by
      intro h
      exact hkey (List.eq_nil_of_length_eq_zero h)
    constructor
    · intro h
      by_contra hlen
      rw [EncryptionManager.decrypt, if_neg hkl, if_neg hlen] at h
      rcases hc : cbcDecryptCore (D m.key) (blob.take 16) (blob.drop 16) with _ | pt <;>
        rw [hc] at h <;> simp at h
    · intro hlen
      rw [EncryptionManager.decrypt, if_neg hkl, if_pos hlen]
  · intro hkey hlen
    have hkl : ¬ m.key.length = 0 := by
      intro h
      exact hkey (List.eq_nil_of_length_eq_zero h)
    rw [EncryptionManager.decrypt, if_neg hkl, if_neg (by omega)]
    rcases hc : cbcDecryptCore (D m.key) (blob.take 16) (blob.drop 16) with _ | pt
    · right
      exact ⟨rfl, rfl⟩
    · left
      exact ⟨pt, rfl, rfl⟩

/-- C4 witness: the three branches of the contract at concrete inputs. -/
theorem decrypt_error_contract_witness :
    (EncryptionManager.mk []).decrypt (fun _ b => b) [1, 2, 3] =
      .error .KEY_NOT_INITIALIZED ∧
    (EncryptionManager.mk (List.replicate 32 7)).decrypt (fun _ b => b) [1, 2, 3] =
      .error .INVALID_ENCRYPTED_DATA ∧
    ((∃ pt, cbcDecryptCore (fun b => b) ((List.replicate 20 0).take 16)
        ((List.replicate 20 0).drop 16) = some pt ∧
        (EncryptionManager.mk (List.replicate 32 7)).decrypt (fun _ b => b)
          (List.replicate 20 0) = .ok pt) ∨
      (cbcDecryptCore (fun b => b) ((List.replicate 20 0).take 16)
        ((List.replicate 20 0).drop 16) = none ∧
        (EncryptionManager.mk (List.replicate 32 7)).decrypt (fun _ b => b)
          (List.replicate 20 0) = .error .DECRYPTION_FAILED)) :=
  ⟨(decrypt_error_contract (fun _ b => b) (EncryptionManager.mk []) [1, 2, 3]).1 rfl,
   ((decrypt_error_contract (fun _ b => b) (EncryptionManager.mk (List.replicate 32 7))
      [1, 2, 3]).2.1 (by decide)).mpr (by decide),
   (decrypt_error_contract (fun _ b => b) (EncryptionManager.mk (List.replicate 32 7))
      (List.replicate 20 0)).2.2 (by decide) (by decide)⟩

-- ## C8: blob format
/-- C8 counterexample.  The claim says the minimum valid blob length is 17
bytes, "IV plus at least one padded ciphertext block".  Concretely: the blob
for the shortest possible plaintext (empty) is the 16-byte IV plus one full
16-byte padded block, i.e. 32 bytes, not 17; and `decrypt`'s malformed-input
validation does not reject a 16-byte blob (it fails later, with
`DECRYPTION_FAILED`, not `INVALID_ENCRYPTED_DATA`), so 17 is not the
validation boundary either. -/
theorem blob_min_length_counterexample :
    (EncryptionManager.mk (List.replicate 32 7)).encrypt (fun _ b => b)
        (List.replicate 16 0) [] =
      .ok (List.replicate 16 0 ++ List.replicate 16 16) ∧
    (List.replicate 16 0 ++ List.replicate 16 16).length = 32 ∧
    (EncryptionManager.mk (List.replicate 32 7)).decrypt (fun _ b => b)
        (List.replicate 16 0) = .error .DECRYPTION_FAILED := by
  refine ⟨rfl, by decide, rfl⟩

/-- C8 (amended).  Every blob produced by `encrypt` is the 16-byte IV
concatenated with the ciphertext; the ciphertext is a positive multiple of
16 bytes (at least one padded block), so the minimum produced blob length
is 32 bytes. -/
theorem encrypt_blob_format (E : Bytes → Bytes → Bytes) (m : EncryptionManager)
    (hkey : m.key ≠ []) (hE : ∀ b, b.length = 16 → (E m.key b).length = 16)
    (iv : Bytes) (hiv : iv.length = 16) (x : Bytes) :
    ∃ ct, m.encrypt E iv x = .ok (iv ++ ct) ∧ ct.length % 16 = 0 ∧ 16 ≤ ct.length ∧
      32 ≤ (iv ++ ct).length := by
  have hkl : ¬ m.key.length = 0 := by
    intro h
    exact hkey (List.eq_nil_of_length_eq_zero h)
  have hbs16 : ∀ b ∈ toBlocks (pkcs7pad x), b.length = 16 :=
    toBlocks_blockLen _ (pkcs7pad_length_mod x)
  have hcbs16 : ∀ c ∈ cbcEnc (E m.key) iv (toBlocks (pkcs7pad x)), c.length = 16 :=
    cbcEnc_blockLen _ hE _ iv hiv hbs16
  have hctlen : (cbcEnc (E m.key) iv (toBlocks (pkcs7pad x))).flatten.length =
      16 * (cbcEnc (E m.key) iv (toBlocks (pkcs7pad x))).length :=
    flatten_length_of_blocks _ hcbs16
  have hbsne : toBlocks (pkcs7pad x) ≠ [] := toBlocks_ne_nil _ (pkcs7pad_ne_nil x)
  have hnum : 1 ≤ (cbcEnc (E m.key) iv (toBlocks (pkcs7pad x))).length := by
    rw [cbcEnc_length]
    exact List.length_pos.mpr hbsne
  refine ⟨(cbcEnc (E m.key) iv (toBlocks (pkcs7pad x))).flatten, ?_, ?_, ?_, ?_⟩
  · rw [EncryptionManager.encrypt, if_neg hkl]
  · rw [hctlen]; omega
  · rw [hctlen]; omega
  · rw [List.length_append, hiv, hctlen]; omega

/-- C8 witness: the amended format statement at a concrete input. -/
theorem encrypt_blob_format_witness :
    ∃ ct, (EncryptionManager.mk (List.replicate 32 7)).encrypt (fun _ b => b)
        (List.replicate 16 0) [9, 9, 9] = .ok (List.replicate 16 0 ++ ct) ∧
      ct.length % 16 = 0 ∧ 16 ≤ ct.length ∧ 32 ≤ (List.replicate 16 0 ++ ct).length :=
  encrypt_blob_format (fun _ b => b) _ (by decide) (fun b h => h) _ (by decide) [9, 9, 9]

/-- C3.  Key initialization: an absent key file (`ENOENT`), or a present one
whose base64-decoded length differs from the configured key size, makes
`initialize` adopt a freshly generated random key of the configured size and
persist it base64-encoded; a well-sized key is adopted as-is; any other I/O
failure while reading propagates as a fatal initialization error. -/
theorem initEncryption_contract (b64decode : List Char → Bytes)
    (b64encode : Bytes → List Char) (randomBytes : Nat → Bytes) (keySize : Nat)
    (hrand : ∀ n, (randomBytes n).length = n) :
    (initEncryption b64decode b64encode randomBytes keySize
        (.ioError (("ENOENT").toList)) =
      .ok (EncryptionManager.mk (randomBytes keySize),
        some (b64encode (randomBytes keySize))) ∧
      (randomBytes keySize).length = keySize) ∧
    (∀ text, (b64decode (trimChars text)).length ≠ keySize →
      initEncryption b64decode b64encode randomBytes keySize (.content text) =
        .ok (EncryptionManager.mk (randomBytes keySize),
          some (b64encode (randomBytes keySize)))) ∧
    (∀ text, (b64decode (trimChars text)).length = keySize →
      initEncryption b64decode b64encode randomBytes keySize (.content text) =
        .ok (EncryptionManager.mk (b64decode (trimChars text)), none)) ∧
    (∀ code, code ≠ ("ENOENT").toList →
      initEncryption b64decode b64encode randomBytes keySize (.ioError code) =
        .error .INIT_FAILED) := by
  refine ⟨⟨?_, hrand keySize⟩, ?_, ?_, ?_⟩
  · rw [initEncryption, loadOrCreateKey, if_pos rfl]
  · intro text h
    rw [initEncryption, loadOrCreateKey, if_neg h]
  · intro text h
    rw [initEncryption, loadOrCreateKey, if_pos h]
  · intro code h
    rw [initEncryption, loadOrCreateKey, if_neg h]

/-- C3 witness: the contract instantiated with concrete decode/encode/random
primitives, a 32-byte key size, a short (wrong-length) key file, a well-sized
key file, and a non-`ENOENT` I/O failure. -/
theorem initEncryption_contract_witness :
    (initEncryption (fun l => List.replicate l.length 0)
        (fun b => List.replicate b.length 'A') (fun n => List.replicate n 5) 32
        (.ioError (("ENOENT").toList)) =
      .ok (EncryptionManager.mk (List.replicate 32 5), some (List.replicate 32 'A'))) ∧
    (initEncryption (fun l => List.replicate l.length 0)
        (fun b => List.replicate b.length 'A') (fun n => List.replicate n 5) 32
        (.content (("shortkey").toList)) =
      .ok (EncryptionManager.mk (List.replicate 32 5), some (List.replicate 32 'A'))) ∧
    (initEncryption (fun l => List.replicate l.length 0)
        (fun b => List.replicate b.length 'A') (fun n => List.replicate n 5) 32
        (.ioError (("EACCES").toList)) = .error .INIT_FAILED) :=
  ⟨((initEncryption_contract (fun l => List.replicate l.length 0)
      (fun b => List.replicate b.length 'A') (fun n => List.replicate n 5) 32
      (fun n => List.length_replicate n 5)).1).1,
   (initEncryption_contract (fun l => List.replicate l.length 0)
      (fun b => List.replicate b.length 'A') (fun n => List.replicate n 5) 32
      (fun n => List.length_replicate n 5)).2.1 (("shortkey").toList) (by decide),
   (initEncryption_contract (fun l => List.replicate l.length 0)
      (fun b => List.replicate b.length 'A') (fun n => List.replicate n 5) 32
      (fun n => List.length_replicate n 5)).2.2.2 (("EACCES").toList) (by decide)⟩

-- ## C2: explicit indicators override the scores
/-- C2.  A segment matching one of the explicit privacy indicator patterns is
classified private regardless of the introspection and sensitivity scores
and of the thresholds. -/
theorem indicator_overrides_scores (privacyPatterns : List (List Char → Bool))
    (config : PrivacyConfig) (text : List Char)
    (hmatch : privacyPatterns.any (fun p => p text) = true)
    (introspectionScore sensitivityScore : ℚ) :
    isLikelyPrivate privacyPatterns config text introspectionScore
      sensitivityScore = true := by
  rw [isLikelyPrivate, if_pos hmatch]

/-- C2 witness: `"Keep this to yourself."` matches the fourth default
indicator (here its single-space instance as a case-insensitive substring
test) and is private even with both scores 0 under the default
thresholds 0.7 / 0.8. -/
theorem indicator_overrides_scores_witness :
    isLikelyPrivate [containsCI (("keep this to yourself").toList)]
      (PrivacyConfig.mk (7 / 10) (4 / 5)) (("Keep this to yourself.").toList)
      0 0 = true :=
  indicator_overrides_scores _ _ _ (by decide) 0 0

theorem findAlt_ws_none (alts : List (List Char)) (halts : startsNonWs alts)
    (c : Char) (hc : isWsChar c = true) (ts : List Char) :
    findAlt alts (c :: ts) = none := by
  rw [findAlt, List.find?_eq_none]
  intro w hw
  obtain ⟨hne, hchar⟩ := halts w hw
  obtain ⟨a, rest, rfl⟩ : ∃ a rest, w = a :: rest := by
    cases w with
    | nil => exact absurd rfl hne
    | cons a rest => exact ⟨a, rest, rfl⟩
  have hcmem : c ∈ wsChars := by simpa [isWsChar] using hc
  have hfalse : charEqCI a c = false := by simpa using hchar c hcmem
  simp [altMatch, matchesAt, hfalse]

theorem countMatchesAux_ws_zero (alts : List (List Char)) (halts : startsNonWs alts) :
    ∀ (fuel : Nat) (prev : Option Char) (t : List Char),
    (∀ c ∈ t, isWsChar c = true) → countMatchesAux alts fuel prev t = 0 := by
  intro fuel
  induction fuel with
  | zero => intro prev t _; rfl
  | succ f ih =>
    intro prev t ht
    match t with
    | [] => rfl
    | c :: ts =>
      have hc := ht c (by simp)
      have hrest : ∀ d ∈ ts, isWsChar d = true := fun d hd => ht d (by simp [hd])
      simp only [countMatchesAux, findAlt_ws_none alts halts c hc ts,
        ih (some c) ts hrest, ite_self]

/-- No word of a letter-initial lexicon matches inside all-whitespace text. -/
theorem countMatches_ws_zero (alts : List (List Char)) (halts : startsNonWs alts)
    (t : List Char) (ht : ∀ c ∈ t, isWsChar c = true) : countMatches alts t = 0 :=
  countMatchesAux_ws_zero alts halts t.length none t ht

/-- C9.  A segment with zero whitespace-separated tokens (all its characters
are whitespace, including the empty segment) scores 0.0 on both scales, as a
defined result: no lexicon word can match, so both numerators are 0.  (The
source's `wordCount === 0` guard is unreachable — JavaScript `split` never
returns an empty array — but the scores are 0 through the normal path.) -/
theorem zero_token_scores (text : List Char) (h : ∀ c ∈ text, isWsChar c = true) :
    calculateIntrospectionScore text = 0 ∧ calculateSensitivityScore text = 0 := by
  have hwc : ¬ wordCountJS text = 0 := by simp [wordCountJS]
  constructor
  · rw [calculateIntrospectionScore]
    simp only [countMatches_ws_zero firstPersonWords (by decide) text h,
      countMatches_ws_zero thinkingVerbWords (by decide) text h,
      countMatches_ws_zero uncertaintyWords (by decide) text h, if_neg hwc]
    norm_num
  · rw [calculateSensitivityScore]
    simp only [countMatches_ws_zero controversyWords (by decide) text h,
      countMatches_ws_zero privacyTopicWords (by decide) text h,
      countMatches_ws_zero fearWords (by decide) text h,
      countMatches_ws_zero criticismWords (by decide) text h,
      countMatches_ws_zero cautionWords (by decide) text h, if_neg hwc]
    norm_num

/-- C9 witness: the all-whitespace segment `"  "` (and with it the formal
zero-token hypothesis) scores 0.0 on both scales. -/
theorem zero_token_scores_witness :
    (∀ c ∈ ("  ").toList, isWsChar c = true) ∧
    calculateIntrospectionScore (("  ").toList) = 0 ∧
    calculateSensitivityScore (("  ").toList) = 0 :=
  ⟨by decide, (zero_token_scores (("  ").toList) (by decide)).1,
    (zero_token_scores (("  ").toList) (by decide)).2⟩

-- ## Sorting and folding lemmas
theorem insertByTimestampDesc_perm (x : StoredThought) :
    ∀ l, (insertByTimestampDesc x l).Perm (x :: l) := by
  intro l
  induction l with
  | nil => exact List.Perm.refl _
  | cons y ys ih =>
    rw [insertByTimestampDesc]
    by_cases hle : y.timestamp ≤ x.timestamp
    · rw [if_pos hle]
    · rw [if_neg hle]
      exact ((List.perm_cons y).mpr ih).trans (List.Perm.swap x y ys)

theorem sortByTimestampDesc_perm : ∀ l, (sortByTimestampDesc l).Perm l := by
  intro l
  induction l with
  | nil => exact List.Perm.refl _
  | cons x xs ih =>
    exact (insertByTimestampDesc_perm x (sortByTimestampDesc xs)).trans
      ((List.perm_cons x).mpr ih)

theorem pairwise_insertByTimestampDesc (x : StoredThought) :
    ∀ l, List.Pairwise (fun a b => b.timestamp ≤ a.timestamp) l →
    List.Pairwise (fun a b => b.timestamp ≤ a.timestamp) (insertByTimestampDesc x l) := by
  intro l
  induction l with
  | nil => intro _; simp [insertByTimestampDesc]
  | cons y ys ih =>
    intro hp
    rw [List.pairwise_cons] at hp
    obtain ⟨hy, hys⟩ := hp
    rw [insertByTimestampDesc]
    by_cases hle : y.timestamp ≤ x.timestamp
    · rw [if_pos hle, List.pairwise_cons]
      refine ⟨?_, List.pairwise_cons.mpr ⟨hy, hys⟩⟩
      intro z hz
      rcases List.mem_cons.mp hz with rfl | hz
      · exact hle
      · exact le_trans (hy z hz) hle
    · rw [if_neg hle, List.pairwise_cons]
      refine ⟨?_, ih hys⟩
      intro z hz
      rcases List.mem_cons.mp ((insertByTimestampDesc_perm x ys).mem_iff.mp hz) with rfl | hz
      · omega
      · exact hy z hz

theorem sortByTimestampDesc_sorted :
    ∀ l, List.Pairwise (fun a b => b.timestamp ≤ a.timestamp) (sortByTimestampDesc l) := by
  intro l
  induction l with
  | nil => simp [sortByTimestampDesc]
  | cons x xs ih => exact pairwise_insertByTimestampDesc x _ ih

theorem foldl_add_sizeBytes : ∀ (l : List StoredThought) (n : Nat),
    l.foldl (fun s x => s + x.sizeBytes) n = n + (l.map (fun t => t.sizeBytes)).sum := by
  intro l
  induction l with
  | nil => intro n; simp
  | cons x xs ih =>
    intro n
    show xs.foldl (fun s x => s + x.sizeBytes) (n + x.sizeBytes) = _
    rw [ih]
    simp [List.sum_cons]
    omega

theorem foldl_min_le : ∀ (l : List Nat) (a : Nat),
    l.foldl min a ≤ a ∧ ∀ x ∈ l, l.foldl min a ≤ x := by
  intro l
  induction l with
  | nil => intro a; exact ⟨le_rfl, by simp⟩
  | cons x xs ih =>
    intro a
    have h := ih (min a x)
    refine ⟨le_trans h.1 (min_le_left a x), ?_⟩
    intro y hy
    rcases List.mem_cons.mp hy with rfl | hy
    · exact le_trans h.1 (min_le_right a y)
    · exact h.2 y hy

theorem foldl_min_mem : ∀ (l : List Nat) (a : Nat), l.foldl min a = a ∨ l.foldl min a ∈ l := by
  intro l
  induction l with
  | nil => intro a; exact Or.inl rfl
  | cons x xs ih =>
    intro a
    rw [List.foldl_cons]
    rcases ih (min a x) with h | h
    · rcases min_choice a x with hc | hc
      · exact Or.inl (h.trans hc)
      · refine Or.inr ?_
        rw [h, hc]
        exact List.mem_cons_self x xs
    · exact Or.inr (List.mem_cons_of_mem x h)

theorem foldl_max_le : ∀ (l : List Nat) (a : Nat),
    a ≤ l.foldl max a ∧ ∀ x ∈ l, x ≤ l.foldl max a := by
  intro l
  induction l with
  | nil => intro a; exact ⟨le_rfl, by simp⟩
  | cons x xs ih =>
    intro a
    have h := ih (max a x)
    refine ⟨le_trans (le_max_left a x) h.1, ?_⟩
    intro y hy
    rcases List.mem_cons.mp hy with rfl | hy
    · exact le_trans (le_max_right a y) h.1
    · exact h.2 y hy

theorem foldl_max_mem : ∀ (l : List Nat) (a : Nat), l.foldl max a = a ∨ l.foldl max a ∈ l := by
  intro l
  induction l with
  | nil => intro a; exact Or.inl rfl
  | cons x xs ih =>
    intro a
    rw [List.foldl_cons]
    rcases ih (max a x) with h | h
    · rcases max_choice a x with hc | hc
      · exact Or.inl (h.trans hc)
      · refine Or.inr ?_
        rw [h, hc]
        exact List.mem_cons_self x xs
    · exact Or.inr (List.mem_cons_of_mem x h)

-- ## C6: storage statistics
/-- C6.  `stats()` on an empty store is all-zero; on `N > 0` records it
returns `count = N`, `totalSizeBytes` the sum of the records' sizes,
`oldestTimestamp` the minimum timestamp and `newestTimestamp` the maximum
timestamp of the `listMetadata()` records. -/
theorem storage_stats_contract (dir : List Char) (fs : DirState) :
    (getThoughtMetadata dir fs = [] → getStorageStats dir fs = StorageStats.mk 0 0 0 0) ∧
    (getThoughtMetadata dir fs ≠ [] →
      (getStorageStats dir fs).count = (getThoughtMetadata dir fs).length ∧
      (getStorageStats dir fs).totalSizeBytes =
        ((getThoughtMetadata dir fs).map (fun t => t.sizeBytes)).sum ∧
      ((getStorageStats dir fs).oldestTimestamp ∈
          (getThoughtMetadata dir fs).map (fun t => t.timestamp) ∧
        ∀ v ∈ (getThoughtMetadata dir fs).map (fun t => t.timestamp),
          (getStorageStats dir fs).oldestTimestamp ≤ v) ∧
      ((getStorageStats dir fs).newestTimestamp ∈
          (getThoughtMetadata dir fs).map (fun t => t.timestamp) ∧
        ∀ v ∈ (getThoughtMetadata dir fs).map (fun t => t.timestamp),
          v ≤ (getStorageStats dir fs).newestTimestamp)) := by
  rcases h : getThoughtMetadata dir fs with _ | ⟨t, ts⟩
  · refine ⟨fun _ => ?_, fun hne => absurd rfl hne⟩
    rw [getStorageStats, h]
  · have hstats : getStorageStats dir fs = StorageStats.mk (t :: ts).length
        ((t :: ts).foldl (fun s x => s + x.sizeBytes) 0)
        (ts.foldl (fun m x => min m x.timestamp) t.timestamp)
        (ts.foldl (fun m x => max m x.timestamp) t.timestamp) := by
      rw [getStorageStats, h]
    have hminfold : ts.foldl (fun m x => min m x.timestamp) t.timestamp =
        (ts.map (fun x => x.timestamp)).foldl min t.timestamp :=
      (List.foldl_map _ _ _ _).symm
    have hmaxfold : ts.foldl (fun m x => max m x.timestamp) t.timestamp =
        (ts.map (fun x => x.timestamp)).foldl max t.timestamp :=
      (List.foldl_map _ _ _ _).symm
    refine ⟨fun he => absurd he (by simp), fun _ => ⟨?_, ?_, ⟨?_, ?_⟩, ⟨?_, ?_⟩⟩⟩
    · rw [hstats]
    · rw [hstats]
      show (t :: ts).foldl (fun s x => s + x.sizeBytes) 0 =
        ((t :: ts).map (fun u => u.sizeBytes)).sum
      rw [foldl_add_sizeBytes]
      simp
    · rw [hstats]
      show ts.foldl (fun m x => min m x.timestamp) t.timestamp ∈
        (t :: ts).map (fun u => u.timestamp)
      rw [hminfold]
      rcases foldl_min_mem (ts.map (fun x => x.timestamp)) t.timestamp with hc | hc
      · rw [hc]; simp
      · simp only [List.map_cons, List.mem_cons]
        exact Or.inr hc
    · rw [hstats]
      intro v hv
      show ts.foldl (fun m x => min m x.timestamp) t.timestamp ≤ v
      rw [hminfold]
      rw [List.map_cons] at hv
      rcases List.mem_cons.mp hv with rfl | hv'
      · exact (foldl_min_le _ _).1
      · exact (foldl_min_le _ _).2 v hv'
    · rw [hstats]
      show ts.foldl (fun m x => max m x.timestamp) t.timestamp ∈
        (t :: ts).map (fun u => u.timestamp)
      rw [hmaxfold]
      rcases foldl_max_mem (ts.map (fun x => x.timestamp)) t.timestamp with hc | hc
      · rw [hc]; simp
      · simp only [List.map_cons, List.mem_cons]
        exact Or.inr hc
    · rw [hstats]
      intro v hv
      show v ≤ ts.foldl (fun m x => max m x.timestamp) t.timestamp
      rw [hmaxfold]
      rw [List.map_cons] at hv
      rcases List.mem_cons.mp hv with rfl | hv'
      · exact (foldl_max_le _ _).1
      · exact (foldl_max_le _ _).2 v hv'

-- ## C7: listing metadata
theorem find?_name_of_nodup : ∀ (l : List FileEntry),
    (l.map (fun e => e.name)).Nodup →
    ∀ e ∈ l, l.find? (fun x => x.name == e.name) = some e := by
  intro l
  induction l with
  | nil => intro _ e he; simp at he
  | cons a l ih =>
    intro hnd e he
    rw [List.map_cons, List.nodup_cons] at hnd
    obtain ⟨hna, hnd⟩ := hnd
    rcases List.mem_cons.mp he with rfl | he'
    · exact List.find?_cons_of_pos _ (by simp)
    · have hne : ¬ (a.name == e.name) = true := by
        intro hb
        rw [beq_iff_eq] at hb
        exact hna (by rw [hb]; exact List.mem_map_of_mem _ he')
      rw [@List.find?_cons_of_neg _ (fun x => x.name == e.name) a l hne]
      exact ih hnd e he'

theorem filterMap_statMeta (dir : List Char) (fs : DirState) :
    ∀ (l : List FileEntry),
    (∀ e ∈ l, fs.files.find? (fun x => x.name == e.name) = some e) →
    ((l.map (fun e => e.name)).filter endsWithEnc).filterMap (statMeta dir fs) =
      (l.filter (fun e => endsWithEnc e.name && e.statOk)).map
        (fun e => toThoughtMeta dir e.name e.mtime e.content.length) := by
  intro l
  induction l with
  | nil => intro _; rfl
  | cons e l ih =>
    intro hf
    have he := hf e (by simp)
    have hrest : ∀ x ∈ l, fs.files.find? (fun y => y.name == x.name) = some x :=
      fun x hx => hf x (by simp [hx])
    rw [List.map_cons, List.filter_cons, List.filter_cons]
    by_cases henc : endsWithEnc e.name = true
    · rw [if_pos henc]
      by_cases hok : e.statOk = true
      · rw [if_pos (by rw [henc, hok]; rfl)]
        have hsm : statMeta dir fs e.name =
            some (toThoughtMeta dir e.name e.mtime e.content.length) := by
          rw [statMeta, statFile, he]
          simp [hok]
        simp only [List.filterMap_cons, hsm, List.map_cons]
        rw [ih hrest]
      · rw [if_neg (by simp [hok])]
        have hsm : statMeta dir fs e.name = none := by
          rw [statMeta, statFile, he]
          simp [hok]
        simp only [List.filterMap_cons, hsm]
        exact ih hrest
    · rw [if_neg henc, if_neg (by simp [henc])]
      exact ih hrest

/-- C7.  `listMetadata()` returns an empty list — not an error — when the
storage directory is absent; with the directory present it returns exactly
the records of the `.enc` files whose stat succeeds (per-file stat failures
are skipped, not fatal), sorted by non-increasing timestamp.  (Directory
entries have pairwise distinct names.) -/
theorem listMetadata_contract (dir : List Char) (fs : DirState)
    (hnd : (fs.files.map (fun e => e.name)).Nodup) :
    (fs.present = false → getThoughtMetadata dir fs = []) ∧
    (fs.present = true → getThoughtMetadata dir fs =
      sortByTimestampDesc
        ((fs.files.filter (fun e => endsWithEnc e.name && e.statOk)).map
          (fun e => toThoughtMeta dir e.name e.mtime e.content.length))) ∧
    List.Pairwise (fun a b => b.timestamp ≤ a.timestamp)
      (getThoughtMetadata dir fs) := by
  refine ⟨?_, ?_, sortByTimestampDesc_sorted _⟩
  · intro hp
    rw [getThoughtMetadata, getSavedFiles, if_neg (by simp [hp])]
    rfl
  · intro hp
    rw [getThoughtMetadata, getSavedFiles, if_pos hp]
    exact congrArg sortByTimestampDesc
      (filterMap_statMeta dir fs fs.files (find?_name_of_nodup fs.files hnd))

/-- C7 counterexample.  The claim's "sorted strictly by descending
timestamp" fails when two stored files share a modification time: here two
`.enc` files both have mtime 5, and the returned list is not strictly
descending. -/
theorem listMetadata_strict_sort_counterexample :
    ¬ List.Pairwise (fun a b => b.timestamp < a.timestamp)
      (getThoughtMetadata (("d").toList)
        (DirState.mk true
          [FileEntry.mk (("a.enc").toList) [1] 5 true,
           FileEntry.mk (("b.enc").toList) [2] 5 true])) := by
  decide

/-- C7 witness: the contract at concrete stores — an absent directory with a
leftover file, and a present directory holding an `.enc` file, an `.enc`
file whose stat fails (skipped) and a non-`.enc` key file. -/
theorem listMetadata_contract_witness :
    getThoughtMetadata (("d").toList)
      (DirState.mk false [FileEntry.mk (("x.enc").toList) [1] 3 true]) = [] ∧
    getThoughtMetadata (("d").toList)
      (DirState.mk true
        [FileEntry.mk (("a.enc").toList) [1] 5 true,
         FileEntry.mk (("bad.enc").toList) [2] 9 false,
         FileEntry.mk (("key.txt").toList) [3] 4 true]) =
      sortByTimestampDesc
        (((DirState.mk true
          [FileEntry.mk (("a.enc").toList) [1] 5 true,
           FileEntry.mk (("bad.enc").toList) [2] 9 false,
           FileEntry.mk (("key.txt").toList) [3] 4 true]).files.filter
            (fun e => endsWithEnc e.name && e.statOk)).map
          (fun e => toThoughtMeta (("d").toList) e.name e.mtime e.content.length)) ∧
    List.Pairwise (fun a b => b.timestamp ≤ a.timestamp)
      (getThoughtMetadata (("d").toList)
        (DirState.mk true
          [FileEntry.mk (("a.enc").toList) [1] 5 true,
           FileEntry.mk (("bad.enc").toList) [2] 9 false,
           FileEntry.mk (("key.txt").toList) [3] 4 true])) :=
  ⟨(listMetadata_contract (("d").toList)
      (DirState.mk false [FileEntry.mk (("x.enc").toList) [1] 3 true])
      (by decide)).1 rfl,
   (listMetadata_contract (("d").toList)
      (DirState.mk true
        [FileEntry.mk (("a.enc").toList) [1] 5 true,
         FileEntry.mk (("bad.enc").toList) [2] 9 false,
         FileEntry.mk (("key.txt").toList) [3] 4 true]) (by decide)).2.1 rfl,
   (listMetadata_contract (("d").toList)
      (DirState.mk true
        [FileEntry.mk (("a.enc").toList) [1] 5 true,
         FileEntry.mk (("bad.enc").toList) [2] 9 false,
         FileEntry.mk (("key.txt").toList) [3] 4 true]) (by decide)).2.2⟩

-- ## C10: only `.enc` files are considered
theorem find?_filter_true (pr q : FileEntry → Bool)
    (himp : ∀ x, pr x = true → q x = true) :
    ∀ (l : List FileEntry), (l.filter q).find? pr = l.find? pr := by
  intro l
  induction l with
  | nil => rfl
  | cons a l ih =>
    rw [List.filter_cons]
    by_cases hpr : pr a = true
    · rw [if_pos (himp a hpr), List.find?_cons_of_pos _ hpr, List.find?_cons_of_pos _ hpr]
    · by_cases hq : q a = true
      · rw [if_pos hq, List.find?_cons_of_neg _ hpr, List.find?_cons_of_neg _ hpr, ih]
      · rw [if_neg hq, List.find?_cons_of_neg _ hpr, ih]

theorem statFile_filter_enc (present : Bool) (files : List FileEntry)
    (name : List Char) (henc : endsWithEnc name = true) :
    statFile (DirState.mk present (files.filter (fun e => endsWithEnc e.name))) name =
      statFile (DirState.mk present files) name := by
  have h := find?_filter_true (fun x => x.name == name) (fun e => endsWithEnc e.name)
    (fun x hx => by
      have hxn : x.name = name := by simpa using hx
      show endsWithEnc x.name = true
      rw [hxn]; exact henc) files
  rw [statFile, statFile]
  dsimp only
  rw [h]

/-- C10.  `listMetadata()` and `stats()` consider only the files whose name
ends in `.enc`: restricting the directory to its `.enc` files changes
neither the returned metadata nor the statistics, so a non-`.enc` file (for
example a key file) never appears in the metadata and never contributes to
the counts. -/
theorem only_enc_files_counted (dir : List Char) (fs : DirState) :
    getThoughtMetadata dir
      (DirState.mk fs.present (fs.files.filter (fun e => endsWithEnc e.name))) =
      getThoughtMetadata dir fs ∧
    getStorageStats dir
      (DirState.mk fs.present (fs.files.filter (fun e => endsWithEnc e.name))) =
      getStorageStats dir fs := by
  have hsaved : getSavedFiles
      (DirState.mk fs.present (fs.files.filter (fun e => endsWithEnc e.name))) =
      getSavedFiles fs := by
    rw [getSavedFiles, getSavedFiles]
    dsimp only
    by_cases hp : fs.present = true
    · rw [if_pos hp, if_pos hp, List.filter_map, List.filter_map, List.filter_filter]
      refine congrArg (List.map _) (List.filter_congr ?_)
      intro x _
      show (endsWithEnc x.name && endsWithEnc x.name) = endsWithEnc x.name
      exact Bool.and_self _
    · rw [if_neg hp, if_neg hp]
  have hmeta : getThoughtMetadata dir
      (DirState.mk fs.present (fs.files.filter (fun e => endsWithEnc e.name))) =
      getThoughtMetadata dir fs := by
    rw [getThoughtMetadata, getThoughtMetadata, hsaved]
    refine congrArg sortByTimestampDesc (List.filterMap_congr ?_)
    intro name hname
    have henc : endsWithEnc name = true := by
      rw [getSavedFiles] at hname
      by_cases hp : fs.present = true
      · rw [if_pos hp] at hname
        exact (List.mem_filter.mp hname).2
      · rw [if_neg hp] at hname
        simp at hname
    rw [statMeta, statMeta, statFile_filter_enc fs.present fs.files name henc]
  exact ⟨hmeta, by rw [getStorageStats, getStorageStats, hmeta]⟩

-- ## C5: save-time metadata agrees with stat-derived metadata
theorem takeWhile_all (p : Char → Bool) : ∀ (l : List Char),
    (∀ c ∈ l, p c = true) → l.takeWhile p = l := by
  intro l
  induction l with
  | nil => intro _; rfl
  | cons a l ih =>
    intro h
    rw [List.takeWhile_cons, if_pos (h a (by simp)), ih (fun c hc => h c (by simp [hc]))]

theorem takeWhile_append_stop (p : Char → Bool) :
    ∀ (l₁ : List Char) (x : Char) (l₂ : List Char), (∀ c ∈ l₁, p c = true) →
    p x = false → (l₁ ++ x :: l₂).takeWhile p = l₁ := by
  intro l₁
  induction l₁ with
  | nil =>
    intro x l₂ _ hx
    rw [List.nil_append, List.takeWhile_cons, if_neg (by simp [hx])]
  | cons a l₁ ih =>
    intro x l₂ h hx
    rw [List.cons_append, List.takeWhile_cons, if_pos (h a (by simp)),
      ih x l₂ (fun c hc => h c (by simp [hc])) hx]

theorem basename_no_slash (n : List Char) (h : ('/') ∉ n) : basename n = n := by
  rw [basename, takeWhile_all _ n.reverse ?hall, List.reverse_reverse]
  case hall =>
    intro c hc
    have hcn : c ∈ n := List.mem_reverse.mp hc
    have hne : ¬ c = '/' := fun he => h (he ▸ hcn)
    simp [hne]

theorem basename_joinPath (d n : List Char) (h : ('/') ∉ n) :
    basename (joinPath d n) = n := by
  rw [joinPath, basename]
  have hrev : (d ++ '/' :: n).reverse = n.reverse ++ '/' :: d.reverse := by
    rw [List.reverse_append, List.reverse_cons, List.append_assoc]
    rfl
  rw [hrev, takeWhile_append_stop _ n.reverse '/' d.reverse ?hall (by simp),
    List.reverse_reverse]
  case hall =>
    intro c hc
    have hcn : c ∈ n := List.mem_reverse.mp hc
    have hne : ¬ c = '/' := fun he => h (he ▸ hcn)
    simp [hne]

theorem slash_not_mem_generateFilename (ts14 : List Char) (h : ('/') ∉ ts14) :
    ('/') ∉ generateFilename ts14 := by
  rw [generateFilename]
  intro hmem
  rcases List.mem_append.mp hmem with hm | hm
  · rcases List.mem_append.mp hm with hm' | hm'
    · exact absurd hm' (by decide)
    · exact h hm'
  · exact absurd hm (by decide)

theorem endsWithEnc_generateFilename (ts14 : List Char) :
    endsWithEnc (generateFilename ts14) = true := by
  rw [endsWithEnc, generateFilename, List.isSuffixOf_iff_suffix]
  exact List.suffix_append _ _

theorem find?_map_write (name : List Char) (data : Bytes) (now : Nat) :
    ∀ (l : List FileEntry), l.any (fun e => e.name == name) = true →
    (l.map (fun e => if e.name == name then FileEntry.mk name data now true else e)).find?
      (fun x => x.name == name) = some (FileEntry.mk name data now true) := by
  intro l
  induction l with
  | nil => intro h; simp at h
  | cons a l ih =>
    intro h
    rw [List.map_cons]
    by_cases ha : (a.name == name) = true
    · rw [if_pos ha]
      exact List.find?_cons_of_pos _ (by simp)
    · rw [if_neg ha, @List.find?_cons_of_neg _ (fun x => x.name == name) a _ ha]
      refine ih ?_
      rw [List.any_cons] at h
      simpa [ha] using h

theorem statFile_writeFileEntry (fs : DirState) (name : List Char) (data : Bytes)
    (now : Nat) :
    statFile (writeFileEntry fs name data now) name = some (now, data.length) ∧
    name ∈ (writeFileEntry fs name data now).files.map (fun e => e.name) ∧
    (writeFileEntry fs name data now).present = true := by
  rw [writeFileEntry]
  by_cases hany : fs.files.any (fun e => e.name == name) = true
  · rw [if_pos hany]
    have hf := find?_map_write name data now fs.files hany
    refine ⟨?_, ?_, rfl⟩
    · rw [statFile]
      dsimp only
      rw [hf]
      rfl
    · dsimp only
      exact List.mem_map_of_mem (fun e => e.name) (List.mem_of_find?_eq_some hf)
  · rw [if_neg hany]
    have hnone : fs.files.find? (fun x => x.name == name) = none := by
      rw [List.find?_eq_none]
      exact fun x hx hpx => hany (List.any_eq_true.mpr ⟨x, hx, hpx⟩)
    refine ⟨?_, ?_, rfl⟩
    · rw [statFile]
      dsimp only
      rw [List.find?_append, hnone, List.find?_cons_of_pos _ (by simp)]
      rfl
    · dsimp only
      rw [List.map_append]
      exact List.mem_append.mpr (Or.inr (by simp))

/-- C5.  The metadata returned by `save` (id = filename without the `.enc`
suffix, `timestamp = now()` at save time, `sizeBytes` = blob length) agrees
with the metadata `listMetadata` later re-derives by stat-ing the unchanged
file: the saved record itself appears in the listing, and every listed
record for that filepath is exactly the saved one.  (The 14-character
timestamp string contains no path separator, as the digits produced by the
source never do.) -/
theorem save_metadata_agreement (dir : List Char) (fs : DirState) (now : Nat)
    (ts14 : List Char) (data : Bytes) (hdata : data ≠ []) (hslash : ('/') ∉ ts14) :
    ∃ fs' t, saveEncryptedThought dir fs now ts14 data = .ok (fs', t) ∧
      t.timestamp = now ∧ t.sizeBytes = data.length ∧
      t.id = stripEnc (generateFilename ts14) ∧
      t ∈ getThoughtMetadata dir fs' ∧
      ∀ u ∈ getThoughtMetadata dir fs', u.filepath = t.filepath → u = t := by
  have hlen : ¬ data.length = 0 := fun h => hdata (List.eq_nil_of_length_eq_zero h)
  have hslashf := slash_not_mem_generateFilename ts14 hslash
  obtain ⟨hstat, hmem, hpres⟩ :=
    statFile_writeFileEntry fs (generateFilename ts14) data now
  refine ⟨writeFileEntry fs (generateFilename ts14) data now,
    StoredThought.mk (stripEnc (basename (generateFilename ts14)))
      (joinPath dir (generateFilename ts14)) now data.length, ?_, rfl, rfl, ?_, ?_, ?_⟩
  · rw [saveEncryptedThought, if_neg hlen]
  · show stripEnc (basename (generateFilename ts14)) = stripEnc (generateFilename ts14)
    rw [basename_no_slash _ hslashf]
  · rw [getThoughtMetadata]
    refine (sortByTimestampDesc_perm _).mem_iff.mpr ?_
    refine List.mem_filterMap.mpr ⟨generateFilename ts14, ?_, ?_⟩
    · rw [getSavedFiles, if_pos hpres]
      exact List.mem_filter.mpr ⟨hmem, endsWithEnc_generateFilename ts14⟩
    · rw [statMeta, hstat]
      show some (toThoughtMeta dir (generateFilename ts14) now data.length) =
        some (StoredThought.mk (stripEnc (basename (generateFilename ts14)))
          (joinPath dir (generateFilename ts14)) now data.length)
      rw [toThoughtMeta, basename_joinPath dir _ hslashf, basename_no_slash _ hslashf]
  · intro u hu hfp
    rw [getThoughtMetadata] at hu
    obtain ⟨name', hname', hsm⟩ :=
      List.mem_filterMap.mp ((sortByTimestampDesc_perm _).mem_iff.mp hu)
    rw [statMeta] at hsm
    rcases hsf : statFile (writeFileEntry fs (generateFilename ts14) data now) name'
      with _ | ms
    · rw [hsf] at hsm
      exact Option.noConfusion (show (none : Option StoredThought) = some u from hsm)
    · rw [hsf] at hsm
      have hu2 : toThoughtMeta dir name' ms.1 ms.2 = u :=
        Option.some.inj (show some (toThoughtMeta dir name' ms.1 ms.2) = some u from hsm)
      subst hu2
      have hfp2 : dir ++ '/' :: name' = dir ++ '/' :: generateFilename ts14 := hfp
      have hname_eq : name' = generateFilename ts14 := by
        have h2 : ('/' :: name' : List Char) = '/' :: generateFilename ts14 :=
          List.append_cancel_left hfp2
        simpa using h2
      subst hname_eq
      have hms : ms = (now, data.length) := Option.some.inj (hsf.symm.trans hstat)
      subst hms
      show toThoughtMeta dir (generateFilename ts14) now data.length = _
      rw [toThoughtMeta, basename_joinPath dir _ hslashf, basename_no_slash _ hslashf]

/-- C5 witness: saving a 3-byte blob at clock 10 into a store already holding
an older thought; the returned record re-appears identically in the
listing. -/
theorem save_metadata_agreement_witness :
    ∃ fs' t, saveEncryptedThought (("d").toList)
        (DirState.mk true [FileEntry.mk (("old.enc").toList) [9] 2 true]) 10
        (("20250101000000").toList) [1, 2, 3] = .ok (fs', t) ∧
      t.timestamp = 10 ∧ t.sizeBytes = ([1, 2, 3] : Bytes).length ∧
      t.id = stripEnc (generateFilename (("20250101000000").toList)) ∧
      t ∈ getThoughtMetadata (("d").toList) fs' ∧
      ∀ u ∈ getThoughtMetadata (("d").toList) fs', u.filepath = t.filepath → u = t :=
  save_metadata_agreement (("d").toList)
    (DirState.mk true [FileEntry.mk (("old.enc").toList) [9] 2 true]) 10
    (("20250101000000").toList) [1, 2, 3] (by decide) (by decide)

/-- C6 witness: the statistics of a concrete two-thought store agree with
the listed records. -/
theorem storage_stats_contract_witness :
    (getStorageStats (("d").toList)
        (DirState.mk true
          [FileEntry.mk (("a.enc").toList) [1, 2] 5 true,
           FileEntry.mk (("b.enc").toList) [7] 9 true])).count =
      (getThoughtMetadata (("d").toList)
        (DirState.mk true
          [FileEntry.mk (("a.enc").toList) [1, 2] 5 true,
           FileEntry.mk (("b.enc").toList) [7] 9 true])).length ∧
    (getStorageStats (("d").toList)
        (DirState.mk true
          [FileEntry.mk (("a.enc").toList) [1, 2] 5 true,
           FileEntry.mk (("b.enc").toList) [7] 9 true])).totalSizeBytes =
      ((getThoughtMetadata (("d").toList)
        (DirState.mk true
          [FileEntry.mk (("a.enc").toList) [1, 2] 5 true,
           FileEntry.mk (("b.enc").toList) [7] 9 true])).map
        (fun t => t.sizeBytes)).sum :=
  ⟨((storage_stats_contract (("d").toList)
      (DirState.mk true
        [FileEntry.mk (("a.enc").toList) [1, 2] 5 true,
         FileEntry.mk (("b.enc").toList) [7] 9 true])).2 (by decide)).1,
   ((storage_stats_contract (("d").toList)
      (DirState.mk true
        [FileEntry.mk (("a.enc").toList) [1, 2] 5 true,
         FileEntry.mk (("b.enc").toList) [7] 9 true])).2 (by decide)).2.1⟩
